import Mathlib

/-!
Shallow embedding of the connectome-modelling plasticity simulator
(`src/plasticity/behavior/model.py` and `src/plasticity/behavior/network.py`).

Scalars are modelled as rationals (`ℚ`); the jax float arrays become lists
(vectors) and lists of lists (matrices, stored row-major: a weight matrix of
shape `[m, n]` is a list of `m` rows of length `n`).  The sigmoid
nonlinearity is a transcendental real function, so it is carried as an
explicit function parameter `sig : ℚ → ℚ` — none of the verified claims
depend on its values, only on where it is (and is not) applied.  Randomness
(`jax.random.bernoulli`, the stimulus sampler) is threaded as explicit
oracle streams, mirroring how the source threads explicit PRNG keys.
-/

namespace Connectome

/-- Elementwise vector addition (`a + b` on equal-length jax vectors). -/
def vecAdd (a b : List ℚ) : List ℚ := List.zipWith (· + ·) a b

/-- `x @ w` for a vector `x` of length `m` and a row-major matrix `w` of
shape `[m, n]`: entry `j` is `Σ_i x,i * w[i][j]`. -/
def vecMatMul (x : List ℚ) (w : List (List ℚ)) : List ℚ :=
  (List.range ((w.headD []).length)).map
    (fun j => (List.zipWith (fun xi row => xi * row.getD j 0) x w).sum)

/-- Elementwise matrix addition (`w + dw` on equal-shape jax matrices). -/
def matAdd (a b : List (List ℚ)) : List (List ℚ) :=
  List.zipWith vecAdd a b

/-!
## Weight-Update Engine — `network.weight_update`

Source (`src/plasticity/behavior/network.py:138-158`):
```
def weight_update(x, weights, plasticity_coeffs, plasticity_func, reward, expected_reward):
    reward_term = reward - expected_reward
    m, n = weights.shape
    in_grid, _ = jnp.meshgrid(reshape(x, (m,)), jnp.ones(n,), indexing="ij")
    vfun = vmap(plasticity_func, in_axes=(0, None, 0, None))
    dw = vmap(vfun, in_axes=(1, None, 1, None), out_axes=1)(
        in_grid, reward_term, weights, plasticity_coeffs)
    assert dw.shape == weights.shape, ...
    return dw
```
`in_grid` has `in_grid[i][j] = x[i]`; the nested vmap applies the rule at
every synapse.  For a scalar-valued rule the assert is provably always
satisfied (see the shape-checked variant below for the general case), so the
scalar specialisation returns the delta matrix directly.

The coefficient tensor is opaque to the engine, so it is a type parameter
`C`; a plasticity rule is any function `ℚ → ℚ → ℚ → C → ℚ`.
-/

/-- `network.weight_update` specialised to scalar-valued plasticity rules. -/
def weight_update {C : Type} (f : ℚ → ℚ → ℚ → C → ℚ) (x : List ℚ)
    (weights : List (List ℚ)) (coeffs : C) (reward expected_reward : ℚ) :
    List (List ℚ) :=
  let reward_term := reward - expected_reward
  let n := (weights.headD []).length
  let in_grid := x.map (fun xi => List.replicate n xi)
  List.zipWith
    (fun grow wrow =>
      List.zipWith (fun g wij => f g reward_term wij coeffs) grow wrow)
    in_grid weights

/-! ### list-access helper lemmas -/

theorem get?_zipWith {α β γ : Type} (g : α → β → γ) :
    ∀ (as : List α) (bs : List β) (i : Nat),
      (List.zipWith g as bs).get? i =
        (as.get? i).bind (fun a => (bs.get? i).map (g a)) := by
  intro as
  induction as with
  | nil => intro bs i; cases bs <;> cases i <;> rfl
  | cons a as ih =>
    intro bs i
    cases bs with
    | nil => cases i <;> simp [List.zipWith]
    | cons b bs => cases i with
      | zero => rfl
      | succ i => simpa using ih bs i

theorem get?_replicate {α : Type} (a : α) :
    ∀ (n i : Nat), (List.replicate n a).get? i =
      if i < n then some a else none := by
  intro n
  induction n with
  | zero => intro i; simp [List.replicate]
  | succ n ih =>
    intro i
    cases i with
    | zero => simp [List.replicate]
    | succ i => simpa [List.replicate, Nat.succ_lt_succ_iff] using ih i

theorem mem_of_get?_eq_some {α : Type} {l : List α} {i : Nat} {a : α}
    (h : l.get? i = some a) : a ∈ l :=
  List.get?_mem h

/-- C1: at every synapse `(i, j)` the delta produced by the weight-update
engine is the plasticity rule applied to the presynaptic input `x[i]`, the
single shared reward term `reward − expected_reward`, the current weight
`weights[i][j]`, and the one shared coefficient tensor `coeffs`. -/
theorem weight_update_pointwise {C : Type} (f : ℚ → ℚ → ℚ → C → ℚ)
    (x : List ℚ) (weights : List (List ℚ)) (coeffs : C)
    (reward expected_reward : ℚ) (i j : Nat) (xi : ℚ) (wrow : List ℚ) (wij : ℚ)
    (hrect : ∀ row ∈ weights, row.length = (weights.headD []).length)
    (hxi : x.get? i = some xi)
    (hwr : weights.get? i = some wrow)
    (hwij : wrow.get? j = some wij) :
    ((weight_update f x weights coeffs reward expected_reward).get? i).bind
        (fun row => row.get? j) =
      some (f xi (reward - expected_reward) wij coeffs) := by
  have hj : j < wrow.length := List.get?_eq_some.mp hwij |>.1
  have hlen : wrow.length = (weights.headD []).length :=
    hrect wrow (mem_of_get?_eq_some hwr)
  unfold weight_update
  rw [get?_zipWith, List.get?_map, hxi, hwr]
  simp only [Option.map_some', Option.some_bind, Option.bind_some]
  rw [get?_zipWith, get?_replicate, hwij]
  rw [if_pos (hlen ▸ hj)]
  simp

/-- Closed witness for `weight_update_pointwise` at a concrete input. -/
theorem weight_update_pointwise_witness :
    ((weight_update (fun a t w (_ : Unit) => a * t + w) [1, 2]
        [[10, 20], [30, 40]] () 5 3).get? 1).bind (fun row => row.get? 0) =
      some ((2 : ℚ) * (5 - 3) + 30) :=
  weight_update_pointwise (fun a t w (_ : Unit) => a * t + w) [1, 2]
    [[10, 20], [30, 40]] () 5 3 1 0 2 [30, 40] 30
    (by intro row hrow; fin_cases hrow <;> rfl) rfl rfl rfl

/-!
## Shape-checked Weight-Update Engine — the `assert` in `network.weight_update`

The `assert dw.shape == weights.shape` in the source only bites when the
plasticity rule returns a non-scalar: the nested vmap then stacks extra
trailing axes onto `dw`.  To model it we let the rule return an arbitrary
jax value (`JArr`, a scalar or nested array), rebuild the stacked delta
tensor, and compare shapes exactly as the assert does, aborting
(`Except.error`) on mismatch.
-/

/-- A jax value of arbitrary rank: a scalar or a (possibly nested) array. -/
inductive JArr : Type where
  | scalar : ℚ → JArr
  | arr : List JArr → JArr

mutual

/-- The shape of a tensor value, `none` if ragged (jax arrays are always
rectangular; a ragged stack corresponds to a jax error, also fatal). -/
def shapeJ : JArr → Option (List Nat)
  | .scalar _ => some []
  | .arr ts => (shapeElems ts).map (fun s => ts.length :: s)

/-- Common shape of the elements of one axis (`some []` for an empty axis,
whose element shape is unconstrained). -/
def shapeElems : List JArr → Option (List Nat)
  | [] => some []
  | [t] => shapeJ t
  | t :: u :: rest =>
    (shapeJ t).bind (fun s =>
      (shapeElems (u :: rest)).bind (fun s2 => if s = s2 then some s else none))

end

/-- A rational matrix as a jax tensor value. -/
def toJMat (w : List (List ℚ)) : JArr :=
  .arr (w.map (fun row => .arr (row.map JArr.scalar)))

/-- The raw (pre-assert) delta tensor of `network.weight_update` for a rule
with arbitrary-rank output: the nested vmap over `in_grid` and `weights`. -/
def delta_tensor {C : Type} (f : ℚ → ℚ → ℚ → C → JArr) (x : List ℚ)
    (weights : List (List ℚ)) (coeffs : C) (reward expected_reward : ℚ) :
    List (List JArr) :=
  let reward_term := reward - expected_reward
  let n := (weights.headD []).length
  let in_grid := x.map (fun xi => List.replicate n xi)
  List.zipWith
    (fun grow wrow =>
      List.zipWith (fun g wij => f g reward_term wij coeffs) grow wrow)
    in_grid weights

/-- `network.weight_update` with its shape assert, for general rules. -/
def weight_update_checked {C : Type} (f : ℚ → ℚ → ℚ → C → JArr) (x : List ℚ)
    (weights : List (List ℚ)) (coeffs : C) (reward expected_reward : ℚ) :
    Except String (List (List JArr)) :=
  let dw := delta_tensor f x weights coeffs reward expected_reward
  if shapeJ (.arr (dw.map .arr)) = shapeJ (toJMat weights) then .ok dw
  else .error "dw and w should be of the same shape to prevent broadcasting while adding"

theorem shapeElems_uniform (s : List Nat) :
    ∀ ts : List JArr, (∀ t ∈ ts, shapeJ t = some s) → ts ≠ [] →
      shapeElems ts = some s := by
  intro ts
  induction ts with
  | nil => intro _ h; exact absurd rfl h
  | cons t rest ih =>
    intro hall _
    cases rest with
    | nil => exact hall t (by simp)
    | cons u rest2 =>
      rw [shapeElems, hall t (by simp),
        ih (fun t' ht' => hall t' (by simp [ht'])) (by simp)]
      simp

theorem shapeJ_arr_of_scalars (ts : List JArr)
    (h : ∀ t ∈ ts, ∃ q, t = .scalar q) : shapeJ (.arr ts) = some [ts.length] := by
  cases ts with
  | nil => rfl
  | cons t rest =>
    have hs : ∀ u ∈ t :: rest, shapeJ u = some [] := by
      intro u hu
      obtain ⟨q, hq⟩ := h u hu
      rw [hq, shapeJ]
    rw [shapeJ, shapeElems_uniform [] (t :: rest) hs (by simp)]
    rfl

theorem shapeJ_arr_uniform_rows (rows : List JArr) (s : List Nat)
    (h : ∀ t ∈ rows, shapeJ t = some s) (hne : rows ≠ []) :
    shapeJ (.arr rows) = some (rows.length :: s) := by
  rw [shapeJ, shapeElems_uniform s rows h hne]
  rfl

theorem forall_mem_zipWith {α β γ : Type} (g : α → β → γ) (P : γ → Prop) :
    ∀ (as : List α) (bs : List β), (∀ a ∈ as, ∀ b ∈ bs, P (g a b)) →
      ∀ c ∈ List.zipWith g as bs, P c := by
  intro as
  induction as with
  | nil => intro bs _ c hc; simp at hc
  | cons a as ih =>
    intro bs hab c hc
    cases bs with
    | nil => simp at hc
    | cons b bs =>
      simp only [List.zipWith, List.mem_cons] at hc
      rcases hc with hc | hc
      · exact hc ▸ hab a (by simp) b (by simp)
      · exact ih bs (fun a' ha' b' hb' => hab a' (by simp [ha']) b' (by simp [hb'])) c hc

theorem shapeJ_scalar_matrix (w : List (List ℚ)) (n : Nat)
    (hrect : ∀ row ∈ w, row.length = n) (hne : w ≠ []) :
    shapeJ (toJMat w) = some [w.length, n] := by
  rw [toJMat]
  have hrows : ∀ t ∈ w.map (fun row => JArr.arr (row.map JArr.scalar)),
      shapeJ t = some [n] := by
    intro t ht
    simp only [List.mem_map] at ht
    obtain ⟨row, hrow, hteq⟩ := ht
    subst hteq
    have hsc : ∀ u ∈ row.map JArr.scalar, ∃ q, u = JArr.scalar q := by
      intro u hu
      simp only [List.mem_map] at hu
      obtain ⟨q, _, hq⟩ := hu
      exact ⟨q, hq.symm⟩
    rw [shapeJ_arr_of_scalars _ hsc, List.length_map, hrect row hrow]
  rw [shapeJ_arr_uniform_rows _ _ hrows (by simpa using hne)]
  simp

theorem weight_update_length {C : Type} (f : ℚ → ℚ → ℚ → C → ℚ) (x : List ℚ)
    (weights : List (List ℚ)) (coeffs : C) (reward expected_reward : ℚ)
    (hx : x.length = weights.length) :
    (weight_update f x weights coeffs reward expected_reward).length =
      weights.length := by
  unfold weight_update
  rw [List.length_zipWith, List.length_map, hx]
  exact Nat.min_self _

theorem weight_update_row_length {C : Type} (f : ℚ → ℚ → ℚ → C → ℚ) (x : List ℚ)
    (weights : List (List ℚ)) (coeffs : C) (reward expected_reward : ℚ)
    (hrect : ∀ row ∈ weights, row.length = (weights.headD []).length) :
    ∀ row ∈ weight_update f x weights coeffs reward expected_reward,
      row.length = (weights.headD []).length := by
  intro r hr
  unfold weight_update at hr
  refine forall_mem_zipWith _ (fun r => r.length = (weights.headD []).length)
    _ _ ?_ r hr
  intro grow hgrow wrow hwrow
  simp only [List.mem_map] at hgrow
  obtain ⟨xi, _, hgeq⟩ := hgrow
  subst hgeq
  rw [List.length_zipWith, List.length_replicate, hrect wrow hwrow]
  exact Nat.min_self _

/-- C2: the weight-update operation's delta always has exactly the shape of
`W`.  (1) For a scalar-valued rule the shape assert passes and the checked
operation returns precisely the scalar engine's delta matrix; (2) whenever
the checked operation returns at all, the returned delta's shape equals the
weight matrix's shape (never silently broadcast or corrected); (3) if the
rule stacks a delta of any other shape, the operation aborts with an
assertion error. -/
theorem weight_update_shape_check {C : Type} (x : List ℚ)
    (weights : List (List ℚ)) (coeffs : C) (reward expected_reward : ℚ)
    (hx : x.length = weights.length)
    (hrect : ∀ row ∈ weights, row.length = (weights.headD []).length) :
    (∀ f : ℚ → ℚ → ℚ → C → ℚ,
        weight_update_checked (fun a t q c => JArr.scalar (f a t q c)) x weights
            coeffs reward expected_reward =
          .ok ((weight_update f x weights coeffs reward expected_reward).map
            (fun row => row.map JArr.scalar)))
    ∧ (∀ (g : ℚ → ℚ → ℚ → C → JArr) (dw : List (List JArr)),
        weight_update_checked g x weights coeffs reward expected_reward = .ok dw →
          shapeJ (.arr (dw.map .arr)) = shapeJ (toJMat weights))
    ∧ (∀ g : ℚ → ℚ → ℚ → C → JArr,
        shapeJ (.arr ((delta_tensor g x weights coeffs reward expected_reward).map
            .arr)) ≠ shapeJ (toJMat weights) →
          ∃ msg, weight_update_checked g x weights coeffs reward expected_reward =
            .error msg) := by
  refine ⟨?_, ?_, ?_⟩
  · intro f
    have hdw : delta_tensor (fun a t q c => JArr.scalar (f a t q c)) x weights
        coeffs reward expected_reward =
        (weight_update f x weights coeffs reward expected_reward).map
          (fun row => row.map JArr.scalar) := by
      simp [delta_tensor, weight_update, List.map_zipWith]
    have hmm : JArr.arr (((weight_update f x weights coeffs reward
        expected_reward).map (fun row => row.map JArr.scalar)).map .arr) =
        toJMat (weight_update f x weights coeffs reward expected_reward) := by
      rw [toJMat, List.map_map]
      rfl
    have hshape : shapeJ (.arr (((weight_update f x weights coeffs reward
        expected_reward).map (fun row => row.map JArr.scalar)).map .arr)) =
        shapeJ (toJMat weights) := by
      rw [hmm]
      by_cases hwe : weights = []
      · subst hwe
        have hxe : x = [] := List.length_eq_zero.mp hx
        subst hxe
        rfl
      · have hdwlen := weight_update_length f x weights coeffs reward
          expected_reward hx
        have hdwne : weight_update f x weights coeffs reward expected_reward ≠ [] := by
          intro hcon
          rw [hcon] at hdwlen
          exact hwe (List.length_eq_zero.mp hdwlen.symm)
        rw [shapeJ_scalar_matrix _ _ (weight_update_row_length f x weights coeffs
            reward expected_reward hrect) hdwne,
          shapeJ_scalar_matrix _ _ hrect hwe, hdwlen]
    rw [weight_update_checked, hdw, if_pos hshape]
  · intro g dw hok
    rw [weight_update_checked] at hok
    split at hok
    · cases hok
      assumption
    · cases hok
  · intro g hne
    rw [weight_update_checked, if_neg hne]
    exact ⟨_, rfl⟩

/-- Closed witness for `weight_update_shape_check` at a concrete input: a
scalar rule succeeds with a same-shape delta, and a vector-valued rule
(extra trailing axis) makes the operation abort. -/
theorem weight_update_shape_check_witness :
    weight_update_checked (fun a t q (_ : Unit) => JArr.scalar (a * t + q)) [1, 2]
        [[5, 6], [7, 8]] () 4 1 =
      .ok ((weight_update (fun a t q (_ : Unit) => a * t + q) [1, 2]
        [[5, 6], [7, 8]] () 4 1).map (fun row => row.map JArr.scalar)) ∧
    ∃ msg, weight_update_checked (fun _ _ _ (_ : Unit) => JArr.arr [.scalar 0])
        [1, 2] [[5, 6], [7, 8]] () 4 1 = .error msg := by
  have h := weight_update_shape_check [1, 2] [[5, 6], [7, 8]] () 4 1 rfl
    (by intro row hrow; fin_cases hrow <;> rfl)
  exact ⟨h.1 _, h.2.2 _ (by simp [delta_tensor, toJMat, shapeJ, shapeElems])⟩

/-!
## Network Forward Pass — `model.network_forward`

Source (`src/plasticity/behavior/model.py:23-38`):
```
def network_forward(params, inputs):
    activations = [inputs]
    activation = inputs
    for w, b in params[:-1]:
        activation = jax.nn.sigmoid(activation @ w + b)
        activations.append(activation)
    final_w, final_b = params[-1]
    logits = activation @ final_w + final_b
    activations.append(logits)
    return activations
```
A parameter list is a list of `(weight matrix, bias vector)` pairs.  For an
empty parameter list the source raises `IndexError` on `params[-1]`; the
embedding returns `[]` there, and every theorem is about nonempty lists.
-/

/-- One network layer: a row-major weight matrix and a bias vector. -/
abbrev Layer : Type := List (List ℚ) × List ℚ

/-- The hidden-layer loop of `network_forward`: successive
`sigmoid(activation @ w + b)` activations, collected in order. -/
def forwardHidden (sig : ℚ → ℚ) : List Layer → List ℚ → List (List ℚ)
  | [], _ => []
  | (w, b) :: rest, a =>
    let a2 := (vecAdd (vecMatMul a w) b).map sig
    a2 :: forwardHidden sig rest a2

/-- `model.network_forward`: the input, the hidden sigmoid activations, and
the final linear logits, in layer order. -/
def network_forward (sig : ℚ → ℚ) (params : List Layer) (inputs : List ℚ) :
    List (List ℚ) :=
  if params.isEmpty then []
  else
    let chain := inputs :: forwardHidden sig params.dropLast inputs
    let last := params.getLastD ([], [])
    chain ++ [vecAdd (vecMatMul (chain.getLastD inputs) last.1) last.2]

theorem forwardHidden_length (sig : ℚ → ℚ) :
    ∀ (ps : List Layer) (a : List ℚ), (forwardHidden sig ps a).length = ps.length := by
  intro ps
  induction ps with
  | nil => intro a; rfl
  | cons l rest ih =>
    intro a
    obtain ⟨w, b⟩ := l
    rw [forwardHidden, List.length_cons, ih]
    rfl

theorem forwardHidden_step (sig : ℚ → ℚ) :
    ∀ (ps : List Layer) (a : List ℚ) (i : Nat) (w : List (List ℚ)) (b y : List ℚ),
      ps.get? i = some (w, b) →
      (a :: forwardHidden sig ps a).get? i = some y →
      (a :: forwardHidden sig ps a).get? (i + 1) =
        some ((vecAdd (vecMatMul y w) b).map sig) := by
  intro ps
  induction ps with
  | nil => intro a i w b y hp; simp at hp
  | cons l rest ih =>
    intro a i w b y hp hy
    obtain ⟨w0, b0⟩ := l
    cases i with
    | zero =>
      cases hp
      cases hy
      rfl
    | succ i =>
      rw [forwardHidden]
      have hp' : rest.get? i = some (w, b) := hp
      have hy' : ((vecAdd (vecMatMul a w0) b0).map sig ::
          forwardHidden sig rest ((vecAdd (vecMatMul a w0) b0).map sig)).get? i =
          some y := by
        simpa [forwardHidden] using hy
      simpa using ih ((vecAdd (vecMatMul a w0) b0).map sig) i w b y hp' hy'

theorem get?_append_left {α : Type} :
    ∀ (l l' : List α) (i : Nat), i < l.length → (l ++ l').get? i = l.get? i := by
  intro l
  induction l with
  | nil => intro l' i h; simp at h
  | cons a l ih =>
    intro l' i h
    cases i with
    | zero => rfl
    | succ i => simpa using ih l' i (by simpa using h)

theorem get?_append_singleton {α : Type} (u : α) :
    ∀ l : List α, (l ++ [u]).get? l.length = some u := by
  intro l
  induction l with
  | nil => rfl
  | cons a l ih => simpa using ih

theorem lt_length_of_get? {α : Type} {l : List α} {i : Nat} {a : α}
    (h : l.get? i = some a) : i < l.length := by
  by_contra hlt
  rw [List.get?_eq_none.mpr (by omega)] at h
  cases h

theorem get?_last_of_cons {α : Type} (d : α) :
    ∀ (a : α) (l : List α), (a :: l).get? l.length = some ((a :: l).getLastD d) := by
  intro a l
  induction l generalizing a with
  | nil => rfl
  | cons b l ih => simpa using ih b

/-- C6: the forward pass over `k` layer pairs returns `k + 1` activation
entries whose first entry is the input itself, whose entry for each hidden
layer equals the sigmoid of the affine map of the previous entry, and whose
last entry (the logits) is the affine map of the previous entry with no
nonlinearity applied. -/
theorem network_forward_spec (sig : ℚ → ℚ) (ps : List Layer)
    (wl : List (List ℚ)) (bl : List ℚ) (x : List ℚ) :
    ((network_forward sig (ps ++ [(wl, bl)]) x).length = ps.length + 2)
    ∧ ((network_forward sig (ps ++ [(wl, bl)]) x).get? 0 = some x)
    ∧ (∀ (i : Nat) (w : List (List ℚ)) (b a : List ℚ),
        ps.get? i = some (w, b) →
        (network_forward sig (ps ++ [(wl, bl)]) x).get? i = some a →
        (network_forward sig (ps ++ [(wl, bl)]) x).get? (i + 1) =
          some ((vecAdd (vecMatMul a w) b).map sig))
    ∧ (∀ a : List ℚ,
        (network_forward sig (ps ++ [(wl, bl)]) x).get? ps.length = some a →
        (network_forward sig (ps ++ [(wl, bl)]) x).get? (ps.length + 1) =
          some (vecAdd (vecMatMul a wl) bl)) := by
  have hdrop : (ps ++ [(wl, bl)]).dropLast = ps := List.dropLast_concat ..
  have hlast : (ps ++ [(wl, bl)]).getLastD ([], []) = (wl, bl) := by
    rw [List.getLastD_eq_getLast?, List.getLast?_concat]
    rfl
  have hnf : network_forward sig (ps ++ [(wl, bl)]) x =
      (x :: forwardHidden sig ps x) ++
        [vecAdd (vecMatMul ((x :: forwardHidden sig ps x).getLastD x) wl) bl] := by
    rw [network_forward, if_neg (by simp), hdrop, hlast]
  have hclen : (x :: forwardHidden sig ps x).length = ps.length + 1 := by
    rw [List.length_cons, forwardHidden_length]
  refine ⟨?_, ?_, ?_, ?_⟩
  · rw [hnf, List.length_append, hclen]
    rfl
  · rw [hnf, get?_append_left _ _ 0 (by rw [hclen]; exact Nat.succ_pos _)]
    rfl
  · intro i w b a hp ha
    have hi : i < ps.length := lt_length_of_get? hp
    rw [hnf, get?_append_left _ _ i (by omega)] at ha
    rw [hnf, get?_append_left _ _ (i + 1) (by omega)]
    exact forwardHidden_step sig ps x i w b a hp ha
  · intro a ha
    rw [hnf, get?_append_left _ _ ps.length (by omega)] at ha
    have hlastc := get?_last_of_cons x x (forwardHidden sig ps x)
    rw [forwardHidden_length] at hlastc
    rw [hlastc] at ha
    cases ha
    rw [hnf, show ps.length + 1 = (x :: forwardHidden sig ps x).length from hclen.symm,
      get?_append_singleton]

/-- Closed witness for `network_forward_spec` at a concrete two-layer input. -/
theorem network_forward_spec_witness :
    ((network_forward id ([([[2]], [3])] ++ [([[4]], [5])]) [7]).length = 3)
    ∧ ((network_forward id ([([[2]], [3])] ++ [([[4]], [5])]) [7]).get? 1 =
        some ((vecAdd (vecMatMul [7] [[2]]) [3]).map id)) := by
  have h := network_forward_spec id [([[2]], [3])] [[4]] [5] [7]
  exact ⟨h.1, h.2.2.1 0 [[2]] [3] [7] rfl h.2.1⟩

/-!
## Weight-Update Engine, multi-layer — `model.update_params`

Source (`src/plasticity/behavior/model.py:108-142`):
```
def update_params(params, activations, plasticity_coeffs, plasticity_func, reward, expected_reward):
    reward_term = reward - expected_reward
    delta_params = []
    activation = activations[0]
    w, b = params[0]
    vmap_inputs = jax.vmap(plasticity_func, in_axes=(None, None, 0, None))
    vmap_synapses = jax.vmap(vmap_inputs, in_axes=(0, None, 0, None))
    dw = vmap_synapses(activation, reward_term, w, plasticity_coeffs)
    db = jnp.zeros_like(b)
    assert dw.shape == w.shape and db.shape == b.shape, ...
    delta_params.append((dw, db))
    if len(params) > len(delta_params):
        delta_params.append((0.0, 0.0))
    params = [(w + dw, b + db) for (w, b), (dw, db) in zip(params, delta_params)]
    return params
```
Notes on the embedding:
  * `params[0]` / `activations[0]` on an empty list raise `IndexError`;
    modelled as `none`.
  * The outer vmap maps axis 0 of `activation` and `w` together, which jax
    rejects when their lengths differ; modelled by the length guard
    (`none` = fatal error).  For a scalar-valued rule the assert is then
    provably satisfied (`dw` is congruent to `w`); the general-rank case is
    `weight_update_checked` above.
  * `delta_params` has at most two entries, so the final `zip` truncates
    `params` to its first two layers: layer 1 (when present) gets the
    scalar delta `0.0`, i.e. `w + 0.0 = w`, and layers from index 2 on are
    dropped from the returned list.  `rest.take 1` is exactly that zip.
-/

/-- `model.update_params`: plasticity applied to layer 0 only. -/
def update_params {C : Type} (f : ℚ → ℚ → ℚ → C → ℚ) (params : List Layer)
    (activations : List (List ℚ)) (coeffs : C) (reward expected_reward : ℚ) :
    Option (List Layer) :=
  match params, activations with
  | (w, b) :: rest, activation :: _ =>
    if activation.length = w.length then
      let reward_term := reward - expected_reward
      let dw := List.zipWith
        (fun xi wrow => wrow.map (fun wij => f xi reward_term wij coeffs))
        activation w
      let db := b.map (fun _ => (0 : ℚ))
      some ((matAdd w dw, vecAdd b db) :: rest.take 1)
    else none
  | _, _ => none

/-- C3 counterexample: on a three-layer parameter list, `update_params`
returns only two layers — the third layer is not present in the returned
list at all (the `zip` against the two-entry `delta_params` drops it), so
the claim that every layer beyond the first is still present fails. -/
theorem update_params_drops_third_layer :
    (update_params (fun _ _ _ (_ : Unit) => 0)
        [([[0]], [0]), ([[1]], [2]), ([[3]], [4])] [[1]] () 0 0).map List.length =
      some 2 ∧
    (update_params (fun _ _ _ (_ : Unit) => 0)
        [([[0]], [0]), ([[1]], [2]), ([[3]], [4])] [[1]] () 0 0).map List.length ≠
      some 3 := by
  constructor <;> decide

/-- C3 amended: the returned parameter list keeps `min (number of layers) 2`
layers; every returned layer beyond the first — that is, layer 1 when the
input has at least two layers — is returned exactly unchanged (its delta is
zero); layers from index 2 on are dropped rather than returned. -/
theorem update_params_second_layer_preserved {C : Type} (f : ℚ → ℚ → ℚ → C → ℚ)
    (params out : List Layer) (activations : List (List ℚ)) (coeffs : C)
    (reward expected_reward : ℚ)
    (h : update_params f params activations coeffs reward expected_reward = some out) :
    out.length = min params.length 2 ∧
    ∀ l1, params.get? 1 = some l1 → out.get? 1 = some l1 := by
  cases params with
  | nil => simp [update_params] at h
  | cons p rest =>
    obtain ⟨w, b⟩ := p
    cases activations with
    | nil => simp [update_params] at h
    | cons activation as =>
      rw [update_params] at h
      split at h
      · cases h
        constructor
        · cases rest with
          | nil => rfl
          | cons r rs =>
            rw [show ((w, b) :: r :: rs).length = rs.length + 2 from rfl,
              Nat.min_eq_right (by omega)]
            rfl
        · intro l1 hl1
          have : rest.get? 0 = some l1 := hl1
          cases rest with
          | nil => cases this
          | cons r rs => cases this; rfl
      · cases h

/-- Closed witness for `update_params_second_layer_preserved` on a concrete
two-layer parameter list. -/
theorem update_params_second_layer_preserved_witness :
    (update_params (fun a t q (_ : Unit) => a * t * q)
          [([[1]], [2]), ([[3]], [4])] [[5]] () 6 1).map List.length =
        some 2 ∧
    (update_params (fun a t q (_ : Unit) => a * t * q)
          [([[1]], [2]), ([[3]], [4])] [[5]] () 6 1).map (fun l => l.get? 1) =
        some (some ([[3]], [4])) := by
  have hcomp : update_params (fun a t q (_ : Unit) => a * t * q)
      [([[1]], [2]), ([[3]], [4])] [[5]] () 6 1 =
      some [([[26]], [2]), ([[3]], [4])] := by
    simp only [update_params, matAdd, List.length_cons, List.length_nil]
    norm_num [vecAdd]
  have h := update_params_second_layer_preserved (fun a t q (_ : Unit) => a * t * q)
    [([[1]], [2]), ([[3]], [4])] [([[26]], [2]), ([[3]], [4])] [[5]] () 6 1 hcomp
  refine ⟨?_, ?_⟩
  · rw [hcomp, Option.map_some']
    simp [h.1]
  · rw [hcomp, Option.map_some', h.2 _ rfl]

/-!
## Trial step and trial scan — `model.network_step`, `model.simulate`

Source (`src/plasticity/behavior/model.py:84-105`):
```
def network_step(trial_inputs, params, plasticity_coeffs, plasticity_func,
                 reward, expected_reward, trial_length):
    activations = jax.vmap(network_forward, in_axes=(None, 0))(params, trial_inputs)
    last_odor_activations = [a[trial_length - 1] for a in activations]
    params = update_params(params, last_odor_activations, ...)
    return params, (params, activations)
```
`trial_inputs` is the padded trial: one input vector per timestep.  The
per-layer stacked activations indexed at `trial_length - 1` are exactly the
forward pass of the single input at timestep `trial_length - 1`; the
embedding records the activations per timestep (a transposition of the
stacked layout, carrying the same data).  Indexing at `trial_length - 1` is
modelled with `List.get?` (the claims only concern `1 ≤ trial_length ≤`
number of timesteps, where jnp indexing and `get?` agree).

`model.simulate` (`model.py:41-81`) is `jax.lax.scan` of `network_step`
over the trials, threading the updated parameters as carry and recording
`(params after the update, all-timestep activations)` for every trial.
-/

/-- One trial's stimulus: (padded per-timestep inputs, reward,
expected reward, trial length). -/
abbrev Stim : Type := List (List ℚ) × ℚ × ℚ × Nat

/-- One trial's recorded output: (parameter snapshot after the update,
per-timestep activation traces). -/
abbrev TrialRecord : Type := List Layer × List (List (List ℚ))

/-- `model.network_step`: batched forward pass over the padded trial, then
one weight update from the decision-timestep activations. -/
def network_step (sig : ℚ → ℚ) {C : Type} (f : ℚ → ℚ → ℚ → C → ℚ)
    (trial_inputs : List (List ℚ)) (params : List Layer) (coeffs : C)
    (reward expected_reward : ℚ) (trial_length : Nat) :
    Option (List Layer × TrialRecord) :=
  let activations := trial_inputs.map (network_forward sig params)
  (activations.get? (trial_length - 1)).bind
    (fun last_odor_activations =>
      (update_params f params last_odor_activations coeffs reward expected_reward).map
        (fun p2 => (p2, (p2, activations))))

/-- `model.simulate`: strict left-to-right scan of `network_step` over the
trials, collecting one `TrialRecord` per trial. -/
def simulate (sig : ℚ → ℚ) {C : Type} (f : ℚ → ℚ → ℚ → C → ℚ) (coeffs : C) :
    List Layer → List Stim → Option (List TrialRecord)
  | _, [] => some []
  | params, s :: rest =>
    (network_step sig f s.1 params coeffs s.2.1 s.2.2.1 s.2.2.2).bind
      (fun pr => (simulate sig f coeffs pr.1 rest).map (fun t => pr.2 :: t))

/-- C5: within a trial the weight update is applied exactly once, to the
activations of the forward pass at the decision timestep
`trial_length - 1`; consequently two padded trials agreeing at that one
timestep produce identical updated parameters, whatever their padded
timesteps hold. -/
theorem network_step_decision_timestep (sig : ℚ → ℚ) {C : Type}
    (f : ℚ → ℚ → ℚ → C → ℚ) (params : List Layer) (coeffs : C)
    (reward expected_reward : ℚ) (trial_length : Nat)
    (in1 : List (List ℚ)) :
    ((network_step sig f in1 params coeffs reward expected_reward
        trial_length).map (fun r => r.1) =
      (in1.get? (trial_length - 1)).bind (fun x =>
        update_params f params (network_forward sig params x) coeffs reward
          expected_reward))
    ∧ (∀ in2 : List (List ℚ),
        in2.get? (trial_length - 1) = in1.get? (trial_length - 1) →
        (network_step sig f in2 params coeffs reward expected_reward
            trial_length).map (fun r => r.1) =
          (network_step sig f in1 params coeffs reward expected_reward
            trial_length).map (fun r => r.1)) := by
  have key : ∀ ins : List (List ℚ),
      (network_step sig f ins params coeffs reward expected_reward
          trial_length).map (fun r => r.1) =
        (ins.get? (trial_length - 1)).bind (fun x =>
          update_params f params (network_forward sig params x) coeffs reward
            expected_reward) := by
    intro ins
    rw [network_step, List.get?_map]
    cases hx : ins.get? (trial_length - 1) with
    | none => rfl
    | some x =>
      simp only [Option.map_some', Option.some_bind]
      cases update_params f params (network_forward sig params x) coeffs reward
        expected_reward <;> rfl
  exact ⟨key in1, fun in2 h => by rw [key in2, key in1, h]⟩

/-- Closed witness for `network_step_decision_timestep`: two trials of true
length 1 in a padded window of 2 timesteps that differ only at the padded
timestep yield the same updated parameters. -/
theorem network_step_decision_timestep_witness :
    (network_step id (fun a t q (_ : Unit) => a * t + q) [[1], [9]]
        [([[0]], [0])] () 2 1 1).map (fun r => r.1) =
      (network_step id (fun a t q (_ : Unit) => a * t + q) [[1], [5]]
        [([[0]], [0])] () 2 1 1).map (fun r => r.1) :=
  (network_step_decision_timestep id (fun a t q (_ : Unit) => a * t + q)
    [([[0]], [0])] () 2 1 1 [[1], [5]]).2 [[1], [9]] rfl

theorem simulate_length (sig : ℚ → ℚ) {C : Type} (f : ℚ → ℚ → ℚ → C → ℚ)
    (coeffs : C) :
    ∀ (stims : List Stim) (params : List Layer) (traj : List TrialRecord),
      simulate sig f coeffs params stims = some traj →
      traj.length = stims.length := by
  intro stims
  induction stims with
  | nil =>
    intro params traj h
    cases h
    rfl
  | cons s rest ih =>
    intro params traj h
    rw [simulate] at h
    cases hstep : network_step sig f s.1 params coeffs s.2.1 s.2.2.1 s.2.2.2 with
    | none => rw [hstep] at h; cases h
    | some pr =>
      rw [hstep, Option.some_bind] at h
      cases htail : simulate sig f coeffs pr.1 rest with
      | none => rw [htail] at h; cases h
      | some t2 =>
        rw [htail, Option.map_some'] at h
        cases h
        rw [List.length_cons, ih pr.1 t2 htail]
        rfl

/-- C4 amended: the trial scan is strictly sequential, so when two stimulus
sequences agree on every trial before index `k` (in particular when only
trial `k`'s reward is perturbed), the recorded outputs — parameter
snapshots and activations — of every trial with index `< k` are identical
between the two runs.  (Outputs from trial `k` on may differ, but need not:
see the counterexample for the claim's "must change" half.) -/
theorem simulate_prefix_independence (sig : ℚ → ℚ) {C : Type}
    (f : ℚ → ℚ → ℚ → C → ℚ) (coeffs : C) :
    ∀ (s1 s2 : List Stim) (params : List Layer) (k : Nat)
      (t1 t2 : List TrialRecord),
      (∀ i, i < k → s1.get? i = s2.get? i) →
      simulate sig f coeffs params s1 = some t1 →
      simulate sig f coeffs params s2 = some t2 →
      ∀ i, i < k → t1.get? i = t2.get? i := by
  intro s1
  induction s1 with
  | nil =>
    intro s2 params k t1 t2 hagree h1 h2 i hik
    cases h1
    have hs2 : s2.get? i = none := (hagree i hik).symm.trans rfl
    have hlen : s2.length ≤ i := List.get?_eq_none.mp hs2
    have ht2len : t2.length = s2.length := simulate_length sig f coeffs s2 params t2 h2
    have h1n : ([] : List TrialRecord).get? i = none := rfl
    rw [h1n, List.get?_eq_none.mpr (by omega)]
  | cons a r1 ih =>
    intro s2 params k t1 t2 hagree h1 h2 i hik
    cases k with
    | zero => omega
    | succ k =>
      have h0 : s2.get? 0 = some a := (hagree 0 (Nat.succ_pos _)).symm
      cases s2 with
      | nil => cases h0
      | cons a2 r2 =>
        have ha2 : a2 = a := Option.some.inj h0
        rw [ha2] at h2
        rw [simulate] at h1 h2
        cases hstep : network_step sig f a.1 params coeffs a.2.1 a.2.2.1 a.2.2.2 with
        | none => rw [hstep] at h1; cases h1
        | some pr =>
          rw [hstep, Option.some_bind] at h1 h2
          cases htail1 : simulate sig f coeffs pr.1 r1 with
          | none => rw [htail1] at h1; cases h1
          | some u1 =>
            cases htail2 : simulate sig f coeffs pr.1 r2 with
            | none => rw [htail2] at h2; cases h2
            | some u2 =>
              rw [htail1, Option.map_some'] at h1
              rw [htail2, Option.map_some'] at h2
              cases h1
              cases h2
              cases i with
              | zero => rfl
              | succ i =>
                have hagree' : ∀ j, j < k → r1.get? j = r2.get? j := by
                  intro j hj
                  exact hagree (j + 1) (by omega)
                exact ih r2 pr.1 k u1 u2 hagree' htail1 htail2 i (by omega)

/-- Closed witness for `simulate_prefix_independence`: two 2-trial runs
whose stimuli agree on trial 0 (the rewards differ at trial 1) record
identical outputs at trial 0. -/
theorem simulate_prefix_independence_witness :
    (simulate id (fun a t _ (_ : Unit) => a * t) () [([[0]], [0])]
        [([[1]], 5, 0, 1), ([[1]], 6, 0, 1)]).map (fun t => t.get? 0) =
      (simulate id (fun a t _ (_ : Unit) => a * t) () [([[0]], [0])]
        [([[1]], 5, 0, 1), ([[1]], 7, 0, 1)]).map (fun t => t.get? 0) := by
  have h1 : simulate id (fun a t _ (_ : Unit) => a * t) () [([[0]], [0])]
      [([[1]], 5, 0, 1), ([[1]], 6, 0, 1)] =
      some [([([[5]], [0])], [[[1], [0]]]), ([([[11]], [0])], [[[1], [5]]])] := by
    norm_num [simulate, network_step, update_params, network_forward,
      forwardHidden, vecAdd, vecMatMul, matAdd, List.get?, List.getD,
      List.getLastD, List.range_succ]
  have h2 : simulate id (fun a t _ (_ : Unit) => a * t) () [([[0]], [0])]
      [([[1]], 5, 0, 1), ([[1]], 7, 0, 1)] =
      some [([([[5]], [0])], [[[1], [0]]]), ([([[12]], [0])], [[[1], [5]]])] := by
    norm_num [simulate, network_step, update_params, network_forward,
      forwardHidden, vecAdd, vecMatMul, matAdd, List.get?, List.getD,
      List.getLastD, List.range_succ]
  rw [h1, h2, Option.map_some', Option.map_some',
    simulate_prefix_independence id (fun a t _ (_ : Unit) => a * t) ()
      [([[1]], 5, 0, 1), ([[1]], 6, 0, 1)] [([[1]], 5, 0, 1), ([[1]], 7, 0, 1)]
      [([[0]], [0])] 1 _ _
      (by intro i hi; cases i with | zero => rfl | succ n => omega) h1 h2 0
      (by omega)]

/-- C4 counterexample: the claim's "the outputs of trials k+1..N change"
half is false.  With a plasticity rule that returns zero (so the carried
weights never move), perturbing trial 0's reward (5 versus 7) leaves trial
1's recorded output bit-identical — it does not change. -/
theorem simulate_reward_perturbation_counterexample :
    (([([[1]], 5, 0, 1), ([[1]], 6, 0, 1)] : List Stim).get? 0 ≠
      ([([[1]], 7, 0, 1), ([[1]], 6, 0, 1)] : List Stim).get? 0)
    ∧ (simulate id (fun _ _ _ (_ : Unit) => 0) () [([[0]], [0])]
        [([[1]], 5, 0, 1), ([[1]], 6, 0, 1)]).bind (fun t => t.get? 1) =
      (simulate id (fun _ _ _ (_ : Unit) => 0) () [([[0]], [0])]
        [([[1]], 7, 0, 1), ([[1]], 6, 0, 1)]).bind (fun t => t.get? 1)
    ∧ (simulate id (fun _ _ _ (_ : Unit) => 0) () [([[0]], [0])]
        [([[1]], 5, 0, 1), ([[1]], 6, 0, 1)]).bind (fun t => t.get? 1) ≠ none := by
  have h1 : simulate id (fun _ _ _ (_ : Unit) => 0) () [([[0]], [0])]
      [([[1]], 5, 0, 1), ([[1]], 6, 0, 1)] =
      some [([([[0]], [0])], [[[1], [0]]]), ([([[0]], [0])], [[[1], [0]]])] := by
    norm_num [simulate, network_step, update_params, network_forward,
      forwardHidden, vecAdd, vecMatMul, matAdd, List.get?, List.getLastD]
  have h2 : simulate id (fun _ _ _ (_ : Unit) => 0) () [([[0]], [0])]
      [([[1]], 7, 0, 1), ([[1]], 6, 0, 1)] =
      some [([([[0]], [0])], [[[1], [0]]]), ([([[0]], [0])], [[[1], [0]]])] := by
    norm_num [simulate, network_step, update_params, network_forward,
      forwardHidden, vecAdd, vecMatMul, matAdd, List.get?, List.getLastD]
  refine ⟨?_, ?_, ?_⟩
  · intro h
    have := congrArg (fun o => (o.map (fun s : Stim => s.2.1)).getD 0) h
    norm_num [List.get?] at this
  · rw [h1, h2]
  · rw [h1]
    intro h
    cases h

/-!
## C9 — zero plasticity rule keeps the weights fixed
-/

theorem vecAdd_map_zero (v : List ℚ) : vecAdd v (v.map (fun _ => (0 : ℚ))) = v := by
  induction v with
  | nil => rfl
  | cons x v ih => simp [vecAdd] at ih ⊢; exact ih

theorem matAdd_zero_rows (g : ℚ → ℚ → ℚ) (hg : ∀ x y, g x y = 0) :
    ∀ (act : List ℚ) (w : List (List ℚ)), act.length = w.length →
      matAdd w (List.zipWith (fun xi wrow => wrow.map (g xi)) act w) = w := by
  intro act
  induction act with
  | nil =>
    intro w hw
    cases w with
    | nil => rfl
    | cons r rs => cases hw
  | cons x act ih =>
    intro w hw
    cases w with
    | nil => cases hw
    | cons wrow wrest =>
      have hgx : (g x) = (fun _ : ℚ => (0 : ℚ)) := funext (fun y => hg x y)
      simp only [List.zipWith, matAdd, List.zipWith_cons_cons, hgx]
      rw [show List.zipWith vecAdd wrest
            (List.zipWith (fun xi wrow => wrow.map (g xi)) act wrest) =
          matAdd wrest (List.zipWith (fun xi wrow => wrow.map (g xi)) act wrest)
          from rfl,
        ih wrest (by simpa using hw), vecAdd_map_zero]

theorem update_params_zero_rule {C : Type} (f : ℚ → ℚ → ℚ → C → ℚ) (coeffs : C)
    (hf : ∀ a t q, f a t q coeffs = 0) (w : List (List ℚ)) (b : List ℚ)
    (acts : List (List ℚ)) (reward expected_reward : ℚ) (out : List Layer)
    (h : update_params f [(w, b)] acts coeffs reward expected_reward = some out) :
    out = [(w, b)] := by
  cases acts with
  | nil => simp [update_params] at h
  | cons act as =>
    rw [update_params] at h
    split at h
    · cases h
      have hdw : List.zipWith
          (fun xi wrow => wrow.map (fun wij => f xi (reward - expected_reward) wij coeffs))
          act w =
          List.zipWith (fun xi wrow => wrow.map ((fun _ _ : ℚ => (0 : ℚ)) xi)) act w := by
        simp only [hf]
      rw [hdw, matAdd_zero_rows (fun _ _ : ℚ => (0 : ℚ)) (fun _ _ => rfl) act w
          (by assumption), vecAdd_map_zero]
      rfl
    · cases h

theorem network_step_params_of_zero_rule (sig : ℚ → ℚ) {C : Type}
    (f : ℚ → ℚ → ℚ → C → ℚ) (coeffs : C) (hf : ∀ a t q, f a t q coeffs = 0)
    (w : List (List ℚ)) (b : List ℚ) (ins : List (List ℚ))
    (reward expected_reward : ℚ) (trial_length : Nat)
    (pr : List Layer × TrialRecord)
    (h : network_step sig f ins [(w, b)] coeffs reward expected_reward
        trial_length = some pr) :
    pr.1 = [(w, b)] ∧ pr.2.1 = [(w, b)] := by
  simp only [network_step] at h
  cases hacts : (ins.map (network_forward sig [(w, b)])).get? (trial_length - 1) with
  | none => rw [hacts] at h; cases h
  | some lastActs =>
    rw [hacts, Option.some_bind] at h
    cases hupd : update_params f [(w, b)] lastActs coeffs reward expected_reward with
    | none => rw [hupd] at h; cases h
    | some p2 =>
      rw [hupd, Option.map_some'] at h
      cases h
      have := update_params_zero_rule f coeffs hf w b lastActs reward
        expected_reward p2 hupd
      exact ⟨this, this⟩

/-- C9: for a single-layer `[2, 1]` network and a plasticity rule whose
delta is zero at every (activation, reward term, weight) input under the
given coefficients, the simulator's recorded parameter snapshot at every
trial equals the initial parameters — the weights never move, for any
number of trials. -/
theorem simulate_zero_rule_fixed_weights (sig : ℚ → ℚ) {C : Type}
    (f : ℚ → ℚ → ℚ → C → ℚ) (coeffs : C) (hf : ∀ a t q, f a t q coeffs = 0)
    (w00 w10 b0 : ℚ) :
    ∀ (stims : List Stim) (traj : List TrialRecord),
      simulate sig f coeffs [([[w00], [w10]], [b0])] stims = some traj →
      ∀ rec ∈ traj, rec.1 = [([[w00], [w10]], [b0])] := by
  intro stims
  induction stims with
  | nil =>
    intro traj h rec hrec
    cases h
    simp at hrec
  | cons s rest ih =>
    intro traj h rec hrec
    rw [simulate] at h
    cases hstep : network_step sig f s.1 [([[w00], [w10]], [b0])] coeffs s.2.1
        s.2.2.1 s.2.2.2 with
    | none => rw [hstep] at h; cases h
    | some pr =>
      rw [hstep, Option.some_bind] at h
      obtain ⟨hp1, hp2⟩ := network_step_params_of_zero_rule sig f coeffs hf
        [[w00], [w10]] [b0] s.1 s.2.1 s.2.2.1 s.2.2.2 pr hstep
      cases htail : simulate sig f coeffs pr.1 rest with
      | none => rw [htail] at h; cases h
      | some t2 =>
        rw [htail, Option.map_some'] at h
        cases h
        rcases List.mem_cons.mp hrec with hrec | hrec
        · rw [hrec, hp2]
        · exact ih t2 (hp1 ▸ htail) rec hrec

/-- Closed witness for `simulate_zero_rule_fixed_weights` on a concrete
one-trial run of the `[2, 1]` network. -/
theorem simulate_zero_rule_fixed_weights_witness :
    (simulate id (fun _ _ _ (_ : Unit) => 0) () [([[1], [2]], [3])]
        [([[1, 1]], 5, 0, 1)]).map (fun t => t.map (fun rec => rec.1)) =
      some [[([[1], [2]], [3])]] := by
  have hsim : simulate id (fun _ _ _ (_ : Unit) => 0) () [([[1], [2]], [3])]
      [([[1, 1]], 5, 0, 1)] =
      some [([([[1], [2]], [3])], [[[1, 1], [6]]])] := by
    norm_num [simulate, network_step, update_params, network_forward,
      forwardHidden, vecAdd, vecMatMul, matAdd, List.get?, List.getD,
      List.getLastD, List.range_succ]
  rw [hsim, Option.map_some']
  have h := simulate_zero_rule_fixed_weights id (fun _ _ _ (_ : Unit) => 0) ()
    (fun _ _ _ => rfl) 1 2 3 [([[1, 1]], 5, 0, 1)]
    [([([[1], [2]], [3])], [[[1, 1], [6]]])] hsim
  have hrec := h ([([[1], [2]], [3])], [[[1, 1], [6]]]) (by simp)
  rw [List.map_cons, hrec, List.map_nil]

/-!
## Evaluation-harness masking — `model.evaluate`

Source (`src/plasticity/behavior/model.py:178-196`):
```
trial_lengths = jnp.sum(jnp.logical_not(jnp.isnan(decisions["0"])), axis=1).astype(int)
logits_mask = np.ones(decisions[str("0")].shape)
for j, length in enumerate(trial_lengths):
    logits_mask[j][length:] = 0
...
logits = jnp.squeeze(activations[-1])
logits = jnp.multiply(logits, logits_mask)
```
The harness zeroes every logit at a padded position (index `>=` the trial's
true length).  The NaN-counting that produces `trial_lengths` consumes
data-loader output (excluded glue), so the lengths are taken as given.
-/

/-- The evaluation mask: row `j` is `1` before `trial_lengths[j]` and `0`
from it on, over a padded window of `num_steps` timesteps. -/
def logits_mask (trial_lengths : List Nat) (num_steps : Nat) : List (List ℚ) :=
  trial_lengths.map (fun len =>
    (List.range num_steps).map (fun t => if t < len then (1 : ℚ) else 0))

/-- `jnp.multiply(logits, logits_mask)`: elementwise product. -/
def mask_logits (logits mask : List (List ℚ)) : List (List ℚ) :=
  List.zipWith (List.zipWith (· * ·)) logits mask

/-- C7: after masking, the logit of trial `j` at every padded position
(index `>= trial_lengths[j]`) equals zero, whatever the raw model logits
held there. -/
theorem evaluate_masked_logits_zero (logits : List (List ℚ))
    (trial_lengths : List Nat) (num_steps j t len : Nat) (row : List ℚ) (v : ℚ)
    (hlen : trial_lengths.get? j = some len) (ht : len ≤ t)
    (hrow : (mask_logits logits (logits_mask trial_lengths num_steps)).get? j =
      some row)
    (hv : row.get? t = some v) : v = 0 := by
  rw [mask_logits, get?_zipWith] at hrow
  cases hlog : logits.get? j with
  | none => rw [hlog] at hrow; cases hrow
  | some lrow =>
    rw [hlog, logits_mask, List.get?_map, hlen] at hrow
    simp only [Option.map_some', Option.some_bind] at hrow
    cases hrow
    rw [get?_zipWith] at hv
    cases hl : lrow.get? t with
    | none => rw [hl] at hv; cases hv
    | some a =>
      rw [hl, List.get?_map] at hv
      by_cases htM : t < num_steps
      · rw [List.get?_range htM] at hv
        simp only [Option.map_some', Option.some_bind] at hv
        cases hv
        rw [if_neg (by omega), mul_zero]
      · rw [List.get?_eq_none.mpr (by rw [List.length_range]; omega)] at hv
        simp at hv

/-- Closed witness for `evaluate_masked_logits_zero`: a raw logit of `7` at
the padded position of a length-1 trial in a window of 2 is masked to
zero. -/
theorem evaluate_masked_logits_zero_witness : (7 : ℚ) * 0 = 0 :=
  evaluate_masked_logits_zero [[4, 7]] [1] 2 0 1 1 [4 * 1, 7 * 0] (7 * 0) rfl
    (by omega) rfl rfl

/-!
## Fly-experiment simulator — `network.simulate_fly_trial` /
`network.simulate_fly_experiment`

Source (`src/plasticity/behavior/network.py:16-100`).  The trial loop keeps
sampling an odor (Bernoulli 0.5), a stimulus, and a binary decision
(Bernoulli of `sigmoid(x . w)`) until a commit (`sampled_output == 1`);
on commit it reads the committed odor's entry of `rewards_in_arena`, pushes
the reward into the moving-average history deque, zeroes that pool entry,
and applies one weight update.  The experiment loop replenishes the pool
before EVERY trial — `sampled_rewards = bernoulli(key, np.array(r_ratio))`
is a single scalar draw at the current block's ratio, and
`np.logical_or(sampled_rewards, rewards_in_arena)` ORs that one draw into
both odors' entries.

Randomness is modelled by explicit oracle streams (the source threads PRNG
keys the same way): `bern i p` is the replenishment draw for global trial
`i` taken at probability `p`, and `odorO` / `decO` / `inO` are the
within-trial odor, decision and stimulus draws, consumed at a running
counter.  The unbounded `while True` is modelled with fuel (`none` = the
loop ran past the fuel, never hit by the claims' finite runs).  An odor is
a `Bool` (`false` = odor 0, `true` = odor 1); the two-entry float/bool
`rewards_in_arena` array is a `Bool × Bool`.
-/

/-- One fly trial's record, matching the tuple
`(input_xs, trial_odors, decisions, reward, expected_reward)`. -/
structure TrialOut : Type where
  xs : List (List ℚ)
  odors : List Bool
  decisions : List ℚ
  reward : ℚ
  expectedReward : ℚ

/-- `rewards_in_arena[odor]`. -/
def poolGet (p : Bool × Bool) (o : Bool) : Bool := if o then p.2 else p.1

/-- `rewards_in_arena[odor] = v`. -/
def poolSet (p : Bool × Bool) (o : Bool) (v : Bool) : Bool × Bool :=
  if o then (p.1, v) else (v, p.2)

/-- `np.mean` of the reward-history deque. -/
def mean (l : List ℚ) : ℚ := l.sum / l.length

/-- The `while True` body of `network.simulate_fly_trial`, with fuel.
`c` is the oracle counter.  Returns the trial record, the updated weights,
pool and history, and the advanced counter. -/
def flyTrialLoop {C : Type} (sig : ℚ → ℚ) (f : ℚ → ℚ → ℚ → C → ℚ) (coeffs : C)
    (odorO decO : Nat → Bool) (inO : Nat → List ℚ) (expected_reward : ℚ) :
    Nat → Nat → List (List ℚ) → Bool × Bool → List ℚ →
    Option (TrialOut × List (List ℚ) × (Bool × Bool) × List ℚ × Nat)
  | 0, _, _, _, _ => none
  | fuel + 1, c, weights, rewards_in_arena, r_history =>
    let odor := odorO c
    let x := inO c
    let _prob_output := (vecMatMul x weights).map sig
    let dec := decO c
    if dec then
      let reward := if poolGet rewards_in_arena odor then (1 : ℚ) else 0
      let r_history2 := (reward :: r_history).dropLast
      let arena2 := poolSet rewards_in_arena odor false
      let dw := weight_update f x weights coeffs reward expected_reward
      some (⟨[x], [odor], [1], reward, expected_reward⟩,
        matAdd weights dw, arena2, r_history2, c + 1)
    else
      (flyTrialLoop sig f coeffs odorO decO inO expected_reward fuel (c + 1)
          weights rewards_in_arena r_history).map
        (fun r => (⟨x :: r.1.xs, odor :: r.1.odors, 0 :: r.1.decisions,
          r.1.reward, r.1.expectedReward⟩, r.2))

/-- `network.simulate_fly_trial`: computes the expected reward (the mean of
the history deque) once at trial start, then runs the sampling loop. -/
def simulate_fly_trial {C : Type} (sig : ℚ → ℚ) (f : ℚ → ℚ → ℚ → C → ℚ)
    (coeffs : C) (odorO decO : Nat → Bool) (inO : Nat → List ℚ)
    (fuel c : Nat) (weights : List (List ℚ)) (rewards_in_arena : Bool × Bool)
    (r_history : List ℚ) :
    Option (TrialOut × List (List ℚ) × (Bool × Bool) × List ℚ × Nat) :=
  flyTrialLoop sig f coeffs odorO decO inO (mean r_history) fuel c weights
    rewards_in_arena r_history

/-- The mutable state of `network.simulate_fly_experiment` between trials. -/
structure FlyState : Type where
  weights : List (List ℚ)
  pool : Bool × Bool
  rhist : List ℚ
  cnt : Nat

/-- One iteration of the experiment's inner trial loop: the pre-trial
replenishment (one Bernoulli draw at the current block's ratio, OR'd into
both pool entries) followed by one fly trial.  `n` is the global trial
index. -/
def flyExpStep {C : Type} (sig : ℚ → ℚ) (f : ℚ → ℚ → ℚ → C → ℚ) (coeffs : C)
    (bern : Nat → ℚ → Bool) (odorO decO : Nat → Bool) (inO : Nat → List ℚ)
    (fuel n : Nat) (r_ratio : ℚ) (st : FlyState) : Option (TrialOut × FlyState) :=
  let sampled_rewards := bern n r_ratio
  let arena := (st.pool.1 || sampled_rewards, st.pool.2 || sampled_rewards)
  (simulate_fly_trial sig f coeffs odorO decO inO fuel st.cnt st.weights arena
      st.rhist).map
    (fun r => (r.1, ⟨r.2.1, r.2.2.1, r.2.2.2.1, r.2.2.2.2⟩))

/-- The `for trial in range(trials_per_block)` loop. -/
def runBlock {C : Type} (sig : ℚ → ℚ) (f : ℚ → ℚ → ℚ → C → ℚ) (coeffs : C)
    (bern : Nat → ℚ → Bool) (odorO decO : Nat → Bool) (inO : Nat → List ℚ)
    (fuel : Nat) (r_ratio : ℚ) :
    Nat → Nat → FlyState → Option (List TrialOut × FlyState × Nat)
  | 0, n, st => some ([], st, n)
  | t + 1, n, st =>
    (flyExpStep sig f coeffs bern odorO decO inO fuel n r_ratio st).bind
      (fun r => (runBlock sig f coeffs bern odorO decO inO fuel r_ratio t
          (n + 1) r.2).map
        (fun rr => (r.1 :: rr.1, rr.2.1, rr.2.2)))

/-- The `for block in range(len(reward_ratios))` loop. -/
def runBlocks {C : Type} (sig : ℚ → ℚ) (f : ℚ → ℚ → ℚ → C → ℚ) (coeffs : C)
    (bern : Nat → ℚ → Bool) (odorO decO : Nat → Bool) (inO : Nat → List ℚ)
    (fuel trials_per_block : Nat) :
    List ℚ → Nat → FlyState → Option (List (List TrialOut) × FlyState × Nat)
  | [], n, st => some ([], st, n)
  | r_ratio :: rest, n, st =>
    (runBlock sig f coeffs bern odorO decO inO fuel r_ratio trials_per_block
        n st).bind
      (fun r => (runBlocks sig f coeffs bern odorO decO inO fuel
          trials_per_block rest r.2.2 r.2.1).map
        (fun rr => (r.1 :: rr.1, rr.2)))

/-- `network.simulate_fly_experiment`: empty pool, zero-filled history
deque of the moving-average window size, then the nested block/trial
loops. -/
def simulate_fly_experiment {C : Type} (sig : ℚ → ℚ) (f : ℚ → ℚ → ℚ → C → ℚ)
    (coeffs : C) (bern : Nat → ℚ → Bool) (odorO decO : Nat → Bool)
    (inO : Nat → List ℚ) (fuel : Nat) (initial_weights : List (List ℚ))
    (reward_ratios : List ℚ) (trials_per_block moving_avg_window : Nat) :
    Option (List (List TrialOut)) :=
  (runBlocks sig f coeffs bern odorO decO inO fuel trials_per_block
      reward_ratios 0
      ⟨initial_weights, (false, false), List.replicate moving_avg_window 0, 0⟩).map
    (fun r => r.1)

/-- C10: the reward-pool replenishment runs immediately before every trial
of every block (it is the head of each `runBlock` iteration), it takes one
single Bernoulli draw `bern n r_ratio` at the current block's ratio, and it
ORs that same draw into both odors' pool entries at once — so from a fully
consumed pool the two entries entering the trial are both equal to the one
draw, and in general an entry is replenished exactly when it was unconsumed
and the shared draw fired. -/
theorem fly_replenish_every_trial {C : Type} (sig : ℚ → ℚ)
    (f : ℚ → ℚ → ℚ → C → ℚ) (coeffs : C) (bern : Nat → ℚ → Bool)
    (odorO decO : Nat → Bool) (inO : Nat → List ℚ) (fuel : Nat) :
    (∀ (r_ratio : ℚ) (t n : Nat) (st : FlyState),
        runBlock sig f coeffs bern odorO decO inO fuel r_ratio (t + 1) n st =
          (flyExpStep sig f coeffs bern odorO decO inO fuel n r_ratio st).bind
            (fun r => (runBlock sig f coeffs bern odorO decO inO fuel r_ratio t
                (n + 1) r.2).map
              (fun rr => (r.1 :: rr.1, rr.2.1, rr.2.2))))
    ∧ (∀ (n : Nat) (r_ratio : ℚ) (st : FlyState),
        flyExpStep sig f coeffs bern odorO decO inO fuel n r_ratio st =
          (simulate_fly_trial sig f coeffs odorO decO inO fuel st.cnt st.weights
              (st.pool.1 || bern n r_ratio, st.pool.2 || bern n r_ratio)
              st.rhist).map
            (fun r => (r.1, ⟨r.2.1, r.2.2.1, r.2.2.2.1, r.2.2.2.2⟩)))
    ∧ (∀ (n : Nat) (r_ratio : ℚ) (w : List (List ℚ)) (rh : List ℚ) (c : Nat),
        flyExpStep sig f coeffs bern odorO decO inO fuel n r_ratio
            ⟨w, (false, false), rh, c⟩ =
          (simulate_fly_trial sig f coeffs odorO decO inO fuel c w
              (bern n r_ratio, bern n r_ratio) rh).map
            (fun r => (r.1, ⟨r.2.1, r.2.2.1, r.2.2.2.1, r.2.2.2.2⟩)))
    ∧ (∀ (p : Bool × Bool) (d o : Bool),
        poolGet (p.1 || d, p.2 || d) o = (poolGet p o || d)) :=
  ⟨fun _ _ _ _ => rfl, fun _ _ _ => rfl,
    fun n r_ratio w rh c => by simp [flyExpStep],
    fun p d o => by cases o <;> rfl⟩

theorem getLast?_cons_some {α : Type} (a o : α) (l : List α)
    (h : l.getLast? = some o) : (a :: l).getLast? = some o := by
  cases l with
  | nil => cases h
  | cons b m => rw [List.getLast?_cons_cons]; exact h

theorem poolGet_poolSet_same (p : Bool × Bool) (o : Bool) (v : Bool) :
    poolGet (poolSet p o v) o = v := by
  cases o <;> rfl

/-- Commit-time invariants of the fly trial loop: a successful trial has a
committed odor (the last sampled one); the returned pool is exactly the
entering pool with that one odor's entry zeroed (no other entry is
touched); the trial's reward is exactly the entering pool's entry for that
odor (the pool is not touched before the commit). -/
theorem flyTrialLoop_spec {C : Type} (sig : ℚ → ℚ) (f : ℚ → ℚ → ℚ → C → ℚ)
    (coeffs : C) (odorO decO : Nat → Bool) (inO : Nat → List ℚ)
    (expected_reward : ℚ) :
    ∀ (fuel c : Nat) (w : List (List ℚ)) (pool : Bool × Bool) (rh : List ℚ)
      (res : TrialOut × List (List ℚ) × (Bool × Bool) × List ℚ × Nat),
      flyTrialLoop sig f coeffs odorO decO inO expected_reward fuel c w pool rh =
        some res →
      ∃ o, res.1.odors.getLast? = some o ∧ res.2.2.1 = poolSet pool o false ∧
        res.1.reward = (if poolGet pool o then (1 : ℚ) else 0) := by
  intro fuel
  induction fuel with
  | zero => intro c w pool rh res h; cases h
  | succ fuel ih =>
    intro c w pool rh res h
    rw [flyTrialLoop] at h
    by_cases hdec : decO c = true
    · rw [if_pos hdec] at h
      cases h
      exact ⟨odorO c, rfl, rfl, rfl⟩
    · rw [if_neg hdec] at h
      cases hrec : flyTrialLoop sig f coeffs odorO decO inO expected_reward fuel
          (c + 1) w pool rh with
      | none => rw [hrec] at h; cases h
      | some r =>
        rw [hrec, Option.map_some'] at h
        cases h
        obtain ⟨o, ho, hp, hr⟩ := ih (c + 1) w pool rh r hrec
        exact ⟨o, getLast?_cons_some (odorO c) o r.1.odors ho, hp, hr⟩

theorem poolGet_or (p : Bool × Bool) (d o : Bool) :
    poolGet (p.1 || d, p.2 || d) o = (poolGet p o || d) := by
  cases o <;> rfl

theorem poolGet_poolSet_preserve_false (p : Bool × Bool) (u o : Bool)
    (h : poolGet p o = false) : poolGet (poolSet p u false) o = false := by
  cases u <;> cases o <;> simp [poolGet, poolSet] at h ⊢ <;> exact h

/-- One experiment trial whose pre-trial replenishment draw does not fire,
started from a state whose pool entry for `o` is consumed: that entry is
still consumed afterwards (whatever odor the trial commits), and if the
trial commits `o` itself, its reward is zero. -/
theorem flyExpStep_no_draw {C : Type} (sig : ℚ → ℚ) (f : ℚ → ℚ → ℚ → C → ℚ)
    (coeffs : C) (bern : Nat → ℚ → Bool) (odorO decO : Nat → Bool)
    (inO : Nat → List ℚ) (fuel n : Nat) (r_ratio : ℚ) (st : FlyState)
    (res : TrialOut × FlyState) (o : Bool)
    (hb : bern n r_ratio = false) (hpool : poolGet st.pool o = false)
    (h : flyExpStep sig f coeffs bern odorO decO inO fuel n r_ratio st =
      some res) :
    poolGet res.2.pool o = false ∧
      (res.1.odors.getLast? = some o → res.1.reward = 0) := by
  rw [flyExpStep] at h
  cases htr : simulate_fly_trial sig f coeffs odorO decO inO fuel st.cnt
      st.weights (st.pool.1 || bern n r_ratio, st.pool.2 || bern n r_ratio)
      st.rhist with
  | none => rw [htr] at h; cases h
  | some r =>
    rw [htr, Option.map_some'] at h
    cases h
    obtain ⟨o2, ho2, hp2, hr2⟩ := flyTrialLoop_spec sig f coeffs odorO decO inO
      (mean st.rhist) fuel st.cnt st.weights
      (st.pool.1 || bern n r_ratio, st.pool.2 || bern n r_ratio) st.rhist r htr
    have harena : poolGet (st.pool.1 || bern n r_ratio,
        st.pool.2 || bern n r_ratio) o = false := by
      rw [poolGet_or, hb, Bool.or_false]
      exact hpool
    constructor
    · show poolGet r.2.2.1 o = false
      rw [hp2]
      exact poolGet_poolSet_preserve_false _ o2 o harena
    · intro ho
      have ho2o : o2 = o := Option.some.inj (ho2.symm.trans ho)
      show r.1.reward = 0
      rw [hr2, ho2o, harena]
      rfl

theorem runBlock_cnt {C : Type} (sig : ℚ → ℚ) (f : ℚ → ℚ → ℚ → C → ℚ)
    (coeffs : C) (bern : Nat → ℚ → Bool) (odorO decO : Nat → Bool)
    (inO : Nat → List ℚ) (fuel : Nat) (r_ratio : ℚ) :
    ∀ (t n : Nat) (st : FlyState) (res : List TrialOut × FlyState × Nat),
      runBlock sig f coeffs bern odorO decO inO fuel r_ratio t n st = some res →
      res.2.2 = n + t := by
  intro t
  induction t with
  | zero => intro n st res h; cases h; rfl
  | succ t ih =>
    intro n st res h
    rw [runBlock] at h
    cases hstep : flyExpStep sig f coeffs bern odorO decO inO fuel n r_ratio
        st with
    | none => rw [hstep] at h; cases h
    | some r =>
      rw [hstep, Option.some_bind] at h
      cases hrest : runBlock sig f coeffs bern odorO decO inO fuel r_ratio t
          (n + 1) r.2 with
      | none => rw [hrest] at h; cases h
      | some rr =>
        rw [hrest, Option.map_some'] at h
        cases h
        have := ih (n + 1) r.2 rr hrest
        show rr.2.2 = n + (t + 1)
        omega

/-- Propagation through the rest of a block: if odor `o`'s pool entry is
consumed entering a run of `t` trials and none of the `t` pre-trial
replenishment draws fires, then every one of those trials that commits `o`
draws reward zero, and the entry is still consumed at the end. -/
theorem runBlock_preserves_consumed {C : Type} (sig : ℚ → ℚ)
    (f : ℚ → ℚ → ℚ → C → ℚ) (coeffs : C) (bern : Nat → ℚ → Bool)
    (odorO decO : Nat → Bool) (inO : Nat → List ℚ) (fuel : Nat) (r_ratio : ℚ)
    (o : Bool) :
    ∀ (t n : Nat) (st : FlyState) (res : List TrialOut × FlyState × Nat),
      (∀ i, i < t → bern (n + i) r_ratio = false) →
      poolGet st.pool o = false →
      runBlock sig f coeffs bern odorO decO inO fuel r_ratio t n st = some res →
      poolGet res.2.1.pool o = false ∧
        ∀ out ∈ res.1, out.odors.getLast? = some o → out.reward = 0 := by
  intro t
  induction t with
  | zero =>
    intro n st res hb hpool h
    cases h
    exact ⟨hpool, by intro out hout; simp at hout⟩
  | succ t ih =>
    intro n st res hb hpool h
    rw [runBlock] at h
    cases hstep : flyExpStep sig f coeffs bern odorO decO inO fuel n r_ratio
        st with
    | none => rw [hstep] at h; cases h
    | some r =>
      rw [hstep, Option.some_bind] at h
      cases hrest : runBlock sig f coeffs bern odorO decO inO fuel r_ratio t
          (n + 1) r.2 with
      | none => rw [hrest] at h; cases h
      | some rr =>
        rw [hrest, Option.map_some'] at h
        cases h
        obtain ⟨hp1, hr1⟩ := flyExpStep_no_draw sig f coeffs bern odorO decO
          inO fuel n r_ratio st r o
          (by simpa using hb 0 (Nat.succ_pos t)) hpool hstep
        obtain ⟨hp2, hr2⟩ := ih (n + 1) r.2 rr
          (fun i hi => by
            have := hb (i + 1) (by omega)
            rw [show n + 1 + i = n + (i + 1) from by omega]
            exact this)
          hp1 hrest
        refine ⟨hp2, ?_⟩
        intro out hout
        rcases List.mem_cons.mp hout with hout | hout
        · intro ho
          rw [hout] at ho ⊢
          exact hr1 ho
        · exact hr2 out hout

/-- Propagation across whole blocks: same as `runBlock_preserves_consumed`,
with the replenishment draws of all the remaining trials (at each block's
own ratio) not firing. -/
theorem runBlocks_preserves_consumed {C : Type} (sig : ℚ → ℚ)
    (f : ℚ → ℚ → ℚ → C → ℚ) (coeffs : C) (bern : Nat → ℚ → Bool)
    (odorO decO : Nat → Bool) (inO : Nat → List ℚ) (fuel tpb : Nat) (o : Bool) :
    ∀ (ratios : List ℚ) (n : Nat) (st : FlyState)
      (res : List (List TrialOut) × FlyState × Nat),
      (∀ (m : Nat) (p : ℚ), n ≤ m → bern m p = false) →
      poolGet st.pool o = false →
      runBlocks sig f coeffs bern odorO decO inO fuel tpb ratios n st =
        some res →
      poolGet res.2.1.pool o = false ∧
        ∀ bl ∈ res.1, ∀ out ∈ bl, out.odors.getLast? = some o →
          out.reward = 0 := by
  intro ratios
  induction ratios with
  | nil =>
    intro n st res hb hpool h
    cases h
    exact ⟨hpool, by intro bl hbl; simp at hbl⟩
  | cons r_ratio rest ih =>
    intro n st res hb hpool h
    rw [runBlocks] at h
    cases hblk : runBlock sig f coeffs bern odorO decO inO fuel r_ratio tpb n
        st with
    | none => rw [hblk] at h; cases h
    | some rb =>
      rw [hblk, Option.some_bind] at h
      cases hrest : runBlocks sig f coeffs bern odorO decO inO fuel tpb rest
          rb.2.2 rb.2.1 with
      | none => rw [hrest] at h; cases h
      | some rr =>
        rw [hrest, Option.map_some'] at h
        cases h
        obtain ⟨hp1, hr1⟩ := runBlock_preserves_consumed sig f coeffs bern
          odorO decO inO fuel r_ratio o tpb n st rb
          (fun i _ => hb (n + i) r_ratio (by omega)) hpool hblk
        have hcnt := runBlock_cnt sig f coeffs bern odorO decO inO fuel
          r_ratio tpb n st rb hblk
        obtain ⟨hp2, hr2⟩ := ih rb.2.2 rb.2.1 rr
          (fun m p hm => hb m p (by omega)) hp1 hrest
        refine ⟨hp2, ?_⟩
        intro bl hbl
        rcases List.mem_cons.mp hbl with hbl | hbl
        · intro out hout
          rw [hbl] at hout
          exact hr1 out hout
        · exact hr2 bl hbl

/-- C8 amended: once a trial commits to an odor and consumes that odor's
reward, the pool entry for that odor is zeroed, and NO later trial — the
rest of the same block, or any later block — can draw a reward for that
odor unless some subsequent pre-trial Bernoulli replenishment draw fires
(replenishment runs before every trial at the current block's ratio, not
only at block starts): as long as no subsequent draw fires, the entry stays
consumed through every following trial and every commit to that odor draws
reward zero. -/
theorem fly_reward_consumed_until_replenished {C : Type} (sig : ℚ → ℚ)
    (f : ℚ → ℚ → ℚ → C → ℚ) (coeffs : C) (bern : Nat → ℚ → Bool)
    (odorO decO : Nat → Bool) (inO : Nat → List ℚ) (fuel : Nat) :
    (∀ (n : Nat) (r_ratio : ℚ) (st : FlyState) (res : TrialOut × FlyState)
        (o : Bool),
      flyExpStep sig f coeffs bern odorO decO inO fuel n r_ratio st =
        some res →
      res.1.odors.getLast? = some o →
      poolGet res.2.pool o = false)
    ∧ (∀ (r_ratio : ℚ) (o : Bool) (t n : Nat) (st : FlyState)
          (res : List TrialOut × FlyState × Nat),
        (∀ i, i < t → bern (n + i) r_ratio = false) →
        poolGet st.pool o = false →
        runBlock sig f coeffs bern odorO decO inO fuel r_ratio t n st =
          some res →
        (∀ out ∈ res.1, out.odors.getLast? = some o → out.reward = 0) ∧
          poolGet res.2.1.pool o = false)
    ∧ (∀ (tpb : Nat) (ratios : List ℚ) (o : Bool) (n : Nat) (st : FlyState)
          (res : List (List TrialOut) × FlyState × Nat),
        (∀ (m : Nat) (p : ℚ), n ≤ m → bern m p = false) →
        poolGet st.pool o = false →
        runBlocks sig f coeffs bern odorO decO inO fuel tpb ratios n st =
          some res →
        (∀ bl ∈ res.1, ∀ out ∈ bl, out.odors.getLast? = some o →
            out.reward = 0) ∧
          poolGet res.2.1.pool o = false) := by
  refine ⟨?_, ?_, ?_⟩
  · intro n r_ratio st res o h ho
    rw [flyExpStep] at h
    cases htr : simulate_fly_trial sig f coeffs odorO decO inO fuel st.cnt
        st.weights (st.pool.1 || bern n r_ratio, st.pool.2 || bern n r_ratio)
        st.rhist with
    | none => rw [htr] at h; cases h
    | some r =>
      rw [htr, Option.map_some'] at h
      cases h
      obtain ⟨o2, ho2, hp2, _⟩ := flyTrialLoop_spec sig f coeffs odorO decO inO
        (mean st.rhist) fuel st.cnt st.weights
        (st.pool.1 || bern n r_ratio, st.pool.2 || bern n r_ratio) st.rhist
        r htr
      have ho2o : o2 = o := Option.some.inj (ho2.symm.trans ho)
      show poolGet r.2.2.1 o = false
      rw [hp2, ← ho2o]
      exact poolGet_poolSet_same _ o2 false
  · intro r_ratio o t n st res hb hpool h
    obtain ⟨hp, hr⟩ := runBlock_preserves_consumed sig f coeffs bern odorO decO
      inO fuel r_ratio o t n st res hb hpool h
    exact ⟨hr, hp⟩
  · intro tpb ratios o n st res hb hpool h
    obtain ⟨hp, hr⟩ := runBlocks_preserves_consumed sig f coeffs bern odorO
      decO inO fuel tpb o ratios n st res hb hpool h
    exact ⟨hr, hp⟩

/-- C8 counterexample: in a ONE-block experiment (so no "later block"
exists), with the replenishment draw always firing, trial 0 commits odor 0
and consumes its reward (reward 1), yet trial 1 — in the same block —
draws reward 1 for the same odor again: the per-trial replenishment at the
current block's ratio restored it, contradicting "unless it is replenished
by a later block's Bernoulli draw". -/
theorem fly_same_block_redraw_counterexample :
    (simulate_fly_experiment id (fun _ _ _ (_ : Unit) => 0) () (fun _ _ => true)
        (fun _ => false) (fun _ => true) (fun _ => [1]) 1 [[0]] [1] 2 2).map
      (fun blocks => blocks.map (fun ts => ts.map (fun o => (o.odors, o.reward)))) =
      some [[([false], 1), ([false], 1)]] := rfl

/-- Closed witness for `fly_reward_consumed_until_replenished`: a concrete
run in which trial 0 consumes odor 0's reward (reward 1), and — with no
replenishment draw firing afterwards — a later whole-block run from the
resulting state gives reward 0 to its trial recommitting odor 0. -/
theorem fly_reward_consumed_until_replenished_witness :
    poolGet (false, false || false) false = false ∧
    (⟨[[1]], [false], [1], 0, mean [1, 0]⟩ : TrialOut).reward = 0 := by
  have h := fly_reward_consumed_until_replenished id
    (fun _ _ _ (_ : Unit) => 0) () (fun _ _ => false) (fun _ => false)
    (fun _ => true) (fun _ => [1]) 1
  refine ⟨?_, ?_⟩
  · exact h.1 0 1 ⟨[[0]], (true, false), [0, 0], 0⟩
      (⟨[[1]], [false], [1], 1, mean [0, 0]⟩,
        ⟨[[0 + 0]], (false, false || false), [1, 0], 1⟩) false rfl rfl
  · exact (h.2.2 1 [1] false 1 ⟨[[0 + 0]], (false, false || false), [1, 0], 1⟩
      ([[⟨[[1]], [false], [1], 0, mean [1, 0]⟩]],
        ⟨[[0 + 0 + 0]], (false, (false || false) || false), [0, 1], 2⟩, 2)
      (fun _ _ _ => rfl) rfl rfl).1
      [⟨[[1]], [false], [1], 0, mean [1, 0]⟩] (by simp)
      ⟨[[1]], [false], [1], 0, mean [1, 0]⟩ (by simp) rfl

end Connectome
